import Mathlib

/-!
Verification of the packed extension → media-type lookup table of `mime_guess`
(`src/lut/mod.rs` decoder, `src/bin/build-lut.rs` builder).

Modelling conventions:
* Byte strings (`&str` contents, `&[u8]`, `Vec<u8>`) are `List Nat` of byte
  values; query strings (`&str` viewed through `chars()`) are `List Nat` of
  Unicode code points, with `strBytes` giving their UTF-8 byte view.
* `PackedIdx` (`u16`) values live inside `List Nat`; the decoder only reads
  them (no arithmetic that could wrap), so `Nat` is faithful for tables whose
  entries fit the width.
* Rust's checked accesses (`slice::get`, `str::get`, `checked_sub`,
  `checked_add`) are translated to the corresponding `Option`-returning
  operations; `usize::checked_add 1` can only fail at `usize::MAX`, which has
  no analogue on `Nat` and is modelled as always succeeding.
* Reference identity of borrowed buffers (`ptr::eq` in `impl PartialEq for
  Mimes`) is modelled by an explicit address field carried next to the
  buffer's contents.
-/

/-- `u8::to_ascii_uppercase` / `char::to_ascii_uppercase` on a byte or code point. -/
def to_ascii_uppercase (c : Nat) : Nat :=
  if 0x61 ≤ c ∧ c ≤ 0x7A then c - 0x20 else c

/-- `u8::to_ascii_lowercase` on a byte or code point. -/
def to_ascii_lowercase (c : Nat) : Nat :=
  if 0x41 ≤ c ∧ c ≤ 0x5A then c + 0x20 else c

/-- `<[u8]>::eq_ignore_ascii_case`: equal lengths and pointwise
ASCII-case-insensitive byte equality. -/
def eq_ignore_ascii_case (a b : List Nat) : Bool :=
  a.length == b.length &&
    (List.zip a b).all fun p => to_ascii_lowercase p.1 == to_ascii_lowercase p.2

/-- UTF-8 encoding of one Unicode code point. -/
def utf8EncodeChar (c : Nat) : List Nat :=
  if c < 0x80 then [c]
  else if c < 0x800 then [0xC0 + c / 64, 0x80 + c % 64]
  else if c < 0x10000 then [0xE0 + c / 4096, 0x80 + c / 64 % 64, 0x80 + c % 64]
  else [0xF0 + c / 262144, 0x80 + c / 4096 % 64, 0x80 + c / 64 % 64, 0x80 + c % 64]

/-- `str::as_bytes` of a string given as its list of code points. -/
def strBytes (s : List Nat) : List Nat :=
  (s.map utf8EncodeChar).flatten

/-- `str::is_char_boundary`. -/
def is_char_boundary (s : List Nat) (i : Nat) : Bool :=
  i == 0 ||
    match s[i]? with
    | some b => !(0x80 ≤ b && b < 0xC0)
    | none => i == s.length

/-- `str::get(start..end)`: in-bounds and char-boundary checked slicing. -/
def str_get_range (s : List Nat) (start stop : Nat) : Option (List Nat) :=
  if start ≤ stop ∧ is_char_boundary s start ∧ is_char_boundary s stop then
    some ((s.drop start).take (stop - start))
  else none

/-- `slice::get(start..end)`: bounds-checked slicing of a slice. -/
def sliceGetRange (l : List Nat) (start stop : Nat) : Option (List Nat) :=
  if start ≤ stop ∧ stop ≤ l.length then
    some ((l.drop start).take (stop - start))
  else none

/-- `get_packed_range` from `src/lut/mod.rs`: reads `indices[i]` and
`indices[i + 1]` as a half-open range, `None` if either is out of bounds
(`i.checked_add(1)` can only fail at `usize::MAX`, not representable here). -/
def get_packed_range (indices : List Nat) (i : Nat) : Option (Nat × Nat) :=
  match indices[i]? with
  | none => none
  | some start =>
    match indices[i + 1]? with
    | none => none
    | some stop => some (start, stop)

/-- `PackedData` from `src/lut/mod.rs`, plus address fields recording the
identity of the two buffers that `Mimes` borrows. -/
structure PackedData where
  extension_lut : List Nat
  lut_offset : Nat
  extension_offsets : List Nat
  packed_extensions : List Nat
  extension_mimes_offsets : List Nat
  extension_mimes : List Nat
  mime_offsets : List Nat
  packed_mimes : List Nat
  mime_offsets_addr : Nat
  packed_mimes_addr : Nat
deriving DecidableEq

/-- `Mimes` from `src/lut/mod.rs`: a borrowed view of one extension's
media-type index slice over the shared offset/string buffers. -/
structure Mimes where
  extension_mimes : List Nat
  mime_offsets : List Nat
  packed_mimes : List Nat
  mime_offsets_addr : Nat
  packed_mimes_addr : Nat
deriving DecidableEq

/-- `extension_lut_index` from `src/lut/mod.rs`: first char of `ext`,
ASCII-uppercased, converted to `u8` (fails above 255), minus `offset`
with `checked_sub`. -/
def extension_lut_index (offset : Nat) (ext : List Nat) : Option Nat :=
  match ext.head? with
  | none => none
  | some c0 =>
    let c := to_ascii_uppercase c0
    if c ≤ 255 then
      if offset ≤ c then some (c - offset) else none
    else none

/-- The candidate loop of `get_mimes`: `fuel` is the number of remaining
candidate indices (`extension_offsets_range` has `stop - start` elements).
Any failed checked access inside the loop aborts the whole lookup with
`none` (the `?` operator returns from `get_mimes`). -/
def scanBucket (data : PackedData) (extBytes : List Nat) : Nat → Nat → Option Mimes
  | _, 0 => none
  | i, fuel + 1 =>
    match get_packed_range data.extension_offsets i with
    | none => none
    | some (s, e) =>
      match sliceGetRange data.packed_extensions s e with
      | none => none
      | some cand =>
        if eq_ignore_ascii_case cand extBytes then
          match get_packed_range data.extension_mimes_offsets i with
          | none => none
          | some (ms, me) =>
            match sliceGetRange data.extension_mimes ms me with
            | none => none
            | some em =>
              some ⟨em, data.mime_offsets, data.packed_mimes,
                    data.mime_offsets_addr, data.packed_mimes_addr⟩
        else scanBucket data extBytes (i + 1) fuel

/-- `get_mimes` from `src/lut/mod.rs`. -/
def get_mimes (data : PackedData) (ext : List Nat) : Option Mimes :=
  match extension_lut_index data.lut_offset ext with
  | none => none
  | some lutIdx =>
    match get_packed_range data.extension_lut lutIdx with
    | none => none
    | some (s, e) => scanBucket data (strBytes ext) s (e - s)

/-- `Mimes::len`. -/
def Mimes.len (m : Mimes) : Nat :=
  m.extension_mimes.length

/-- `Mimes::is_empty`. -/
def Mimes.isEmptyView (m : Mimes) : Bool :=
  m.extension_mimes.isEmpty

/-- `Mimes::get`. -/
def Mimes.get (m : Mimes) (idx : Nat) : Option (List Nat) :=
  match m.extension_mimes[idx]? with
  | none => none
  | some j =>
    match get_packed_range m.mime_offsets j with
    | none => none
    | some (s, e) => str_get_range m.packed_mimes s e

/-- `impl PartialEq for Mimes`: `ptr::eq` on the two borrowed buffers
(modelled as address equality) plus content equality of the index slice. -/
def Mimes.beq (a b : Mimes) : Bool :=
  a.packed_mimes_addr == b.packed_mimes_addr &&
    a.mime_offsets_addr == b.mime_offsets_addr &&
    a.extension_mimes == b.extension_mimes

/-- Modelled from the spec: "Offset array: an array of N+1 monotonic indices
describing N contiguous ranges within a companion flat buffer" — the first
entry is zero and each piece appends its end offset. -/
def offsetsOf : List (List Nat) → List Nat
  | [] => [0]
  | p :: ps => 0 :: (offsetsOf ps).map (p.length + ·)

/-- Modelled from the spec: step 2 of §4.1 assigns "each distinct media-type
string a stable index by first occurrence"; this keeps the first occurrence
of each string and drops later duplicates. -/
def dedupFirstAux (seen : List (List Nat)) : List (List Nat) → List (List Nat)
  | [] => []
  | x :: xs =>
    if x ∈ seen then dedupFirstAux seen xs
    else x :: dedupFirstAux (seen ++ [x]) xs

/-- Number of entries of `bs` strictly below `q`. -/
def countLt (bs : List Nat) (q : Nat) : Nat :=
  bs.countP fun b => b < q

/-- Modelled from the spec: the walk of §4.1 step 4 over the buckets of the
remaining extensions.  `last` is the current bucket, `j` the number of
extensions already written; a bucket change backfills the skipped lookup
table slots with `j`, and step 5 caps the table with the final count. -/
def lutWalkAux : Nat → Nat → List Nat → List Nat
  | _, j, [] => [j]
  | last, j, b :: bs => List.replicate (b - last) j ++ lutWalkAux b (j + 1) bs

/-- Modelled from the spec: the bucket table built from the (relative) bucket
of every extension in order; the first entry is always zero. -/
def buildLut : List Nat → List Nat
  | [] => [0]
  | _ :: bs => 0 :: lutWalkAux 0 1 bs

/-- Index of the first occurrence of `x` in `l` (the stable index a media
type is assigned at its first occurrence). -/
def idxOfFirst (l : List (List Nat)) (x : List Nat) : Nat :=
  match l with
  | [] => 0
  | a :: t => if a = x then 0 else idxOfFirst t x + 1

/-- Bucket of an extension: its ASCII-uppercased first byte (§3:
"indexed by `uppercase(first_char(ext)) - bucket_offset`"). -/
def bucketOf (e : List Nat) : Nat :=
  to_ascii_uppercase (e.headD 0)

/-- Modelled from the spec: the full §4.1 builder for the decoder's
offset-array layout, over an already inverted and sorted dictionary
`dict : extension → list of media types`.  The generated `PACKED_DATA`
(`src/lut/generated/data.rs`) is absent from the sources and the in-tree
builder binary emits a different layout, so this models the missing builder
from §3/§4.1 of the spec. -/
def buildPackedData (dict : List (List Nat × List (List Nat))) : PackedData :=
  let exts := dict.map Prod.fst
  let allMimes := dedupFirstAux [] ((dict.map Prod.snd).flatten)
  let lutOff := bucketOf (exts.headD [])
  let mimeIdxLists := dict.map fun p => p.2.map fun m => idxOfFirst allMimes m
  { extension_lut := buildLut (exts.map fun e => bucketOf e - lutOff)
    lut_offset := lutOff
    extension_offsets := offsetsOf exts
    packed_extensions := exts.flatten
    extension_mimes_offsets := offsetsOf mimeIdxLists
    extension_mimes := mimeIdxLists.flatten
    mime_offsets := offsetsOf allMimes
    packed_mimes := allMimes.flatten
    mime_offsets_addr := 0
    packed_mimes_addr := 0 }

def GUARD_START : Nat := 0xFD

def GUARD_END : Nat := 0xFE

/-- `PackedIdx::to_le_bytes` for an in-range `u16`. -/
def toLE16 (n : Nat) : List Nat :=
  [n % 256, n / 256 % 256]

/-- Byte-lexicographic strict order on strings (`Ord` on `str`/`[u8]`). -/
def lexLt : List Nat → List Nat → Bool
  | [], [] => false
  | [], _ :: _ => true
  | _ :: _, [] => false
  | a :: as_, b :: bs => a < b || (a == b && lexLt as_ bs)

/-- One `BTreeMap::entry(ext).or_default().push(mime)` step on a sorted
association list. -/
def insertSorted (ext mime : List Nat) :
    List (List Nat × List (List Nat)) → List (List Nat × List (List Nat))
  | [] => [(ext, [mime])]
  | (e, ms) :: rest =>
    if ext = e then (e, ms ++ [mime]) :: rest
    else if lexLt ext e then (ext, [mime]) :: (e, ms) :: rest
    else (e, ms) :: insertSorted ext mime rest

/-- The inversion loop of `main` (`build-lut.rs` lines 63–71): walk the
database in its iteration order and push each media type onto the entry of
every one of its extensions. -/
def extensions_to_mimes (db : List (List Nat × List (List Nat))) :
    List (List Nat × List (List Nat)) :=
  db.foldl (fun acc p => p.2.foldl (fun acc ext => insertSorted ext p.1 acc) acc) []

/-- The first loop of `main`: assign `data_idx` (its current length) to every
media type with extensions and append `GUARD_START mime GUARD_END` to
`mime_data`. -/
def assignMimeData (db : List (List Nat × List (List Nat))) :
    List (List Nat × Nat) × List Nat :=
  db.foldl
    (fun acc p =>
      if p.2.isEmpty then acc
      else (acc.1 ++ [(p.1, acc.2.length)],
            acc.2 ++ [GUARD_START] ++ p.1 ++ [GUARD_END]))
    ([], [])

/-- `write_extension_mime_entry` from `build-lut.rs`: append
`GUARD_START ext GUARD_END` plus the little-endian offset of this entry in
`extension_mimes` to `extension_data`; append the media-type count and the
little-endian `data_idx` of each media type to `extension_mimes`. -/
def write_extension_mime_entry (mimeIdx : List (List Nat × Nat))
    (ext : List Nat) (mimes : List (List Nat)) (ed em : List Nat) :
    Option (List Nat × List Nat) :=
  match mimes.mapM fun m => (mimeIdx.find? fun q => q.1 == m).map Prod.snd with
  | none => none
  | some idxs =>
    some (ed ++ [GUARD_START] ++ ext ++ [GUARD_END] ++ toLE16 em.length,
          em ++ [mimes.length] ++ (idxs.map toLE16).flatten)

/-- The main walk of `build-lut.rs` (lines 101–123) over the extensions after
the first: compute the LUT index, extend the LUT with copies of the current
`extension_data` length when the index changes (`last..lut_index` is empty
when the new index is not larger), then write the entry.  Note: no final
capping entry is pushed after the walk. -/
def walkExts (lutOff : Nat) (mimeIdx : List (List Nat × Nat)) :
    List (List Nat × List (List Nat)) → Nat → List Nat → List Nat → List Nat →
    Option (List Nat × List Nat × List Nat)
  | [], _, lut, ed, em => some (lut, ed, em)
  | (ext, ms) :: rest, last, lut, ed, em =>
    match extension_lut_index lutOff ext with
    | none => none
    | some li =>
      let lut := if li ≠ last then lut ++ List.replicate (li - last) ed.length else lut
      match write_extension_mime_entry mimeIdx ext ms ed em with
      | none => none
      | some (ed, em) => walkExts lutOff mimeIdx rest li lut ed em

/-- The output of the in-tree builder: the fields of the `PackedData` literal
it writes to `generated/data.rs` (which are not the fields the decoder's
`PackedData` declares). -/
structure BuildOut where
  lut_offset : Nat
  extension_lut : List Nat
  extension_data : List Nat
  extension_mimes : List Nat
  mime_data : List Nat
deriving DecidableEq

/-- `main` of `build-lut.rs` after the database download: media-type data
assignment, inversion, LUT offset from the first extension, first entry,
then the walk.  `none` models the panicking paths. -/
def build_lut_main (db : List (List Nat × List (List Nat))) : Option BuildOut :=
  let mi := assignMimeData db
  match extensions_to_mimes db with
  | [] => none
  | (e0, ms0) :: rest =>
    match extension_lut_index 0 e0 with
    | none => none
    | some lutOff =>
      match write_extension_mime_entry mi.1 e0 ms0 [] [] with
      | none => none
      | some (ed, em) =>
        match walkExts lutOff mi.1 rest 0 [0] ed em with
        | none => none
        | some (lut, ed, em) => some ⟨lutOff, lut, ed, em, mi.2⟩

/-- A table whose only extension is the Latin-1 string `"é"` (UTF-8 bytes
`C3 A9`), bucketed at offset `0xE9`. -/
def latin1Table : PackedData :=
  { extension_lut := [0, 1]
    lut_offset := 0xE9
    extension_offsets := [0, 2]
    packed_extensions := [0xC3, 0xA9]
    extension_mimes_offsets := [0, 1]
    extension_mimes := [0]
    mime_offsets := [0, 1]
    packed_mimes := [0x78]
    mime_offsets_addr := 0
    packed_mimes_addr := 0 }

/-- Bucket table points at candidate ranges although `extension_offsets` is
empty: every index the scan touches is out of range. -/
def badLutTable : PackedData :=
  { extension_lut := [0, 5]
    lut_offset := 0x41
    extension_offsets := []
    packed_extensions := []
    extension_mimes_offsets := []
    extension_mimes := []
    mime_offsets := []
    packed_mimes := []
    mime_offsets_addr := 0
    packed_mimes_addr := 0 }

/-- Non-monotonic `extension_offsets`: the first range's start (3) exceeds
its end (1). -/
def badOffsetsTable : PackedData :=
  { extension_lut := [0, 1]
    lut_offset := 0x41
    extension_offsets := [3, 1]
    packed_extensions := [0x61, 0x62]
    extension_mimes_offsets := [0, 1]
    extension_mimes := [0]
    mime_offsets := [0, 1]
    packed_mimes := [0x61]
    mime_offsets_addr := 0
    packed_mimes_addr := 0 }

/-- The index at position `i` of the view resolves through `mime_offsets`
into a valid (bounds- and boundary-checked) slice of `packed_mimes`. -/
def mimes_get_resolvable (m : Mimes) (i : Nat) : Prop :=
  ∃ j s e, m.extension_mimes[i]? = some j ∧
    get_packed_range m.mime_offsets j = some (s, e) ∧
    (str_get_range m.packed_mimes s e).isSome = true

/-- A view as produced over one table instance. -/
def viewA : Mimes := ⟨[0], [0, 1], [0x61], 10, 11⟩

/-- The same content as `viewA`, but borrowed from a distinct table
instance (different buffer addresses). -/
def viewB : Mimes := ⟨[0], [0, 1], [0x61], 20, 21⟩

/-- A table whose second bucket is empty (`[5, 5)`), with `lut_offset`
at `A` so that the query `"b"` lands in it. -/
def emptyBucketTable : PackedData :=
  { extension_lut := [0, 5, 5]
    lut_offset := 0x41
    extension_offsets := []
    packed_extensions := []
    extension_mimes_offsets := []
    extension_mimes := []
    mime_offsets := []
    packed_mimes := []
    mime_offsets_addr := 0
    packed_mimes_addr := 0 }

/-- A two-mime database whose extensions `a` and `c` leave bucket `B`
empty; the walk backfills it with the next populated bucket's offset. -/
def dbTwoBuckets : List (List Nat × List (List Nat)) :=
  [([0x61, 0x2F, 0x62], [[0x61], [0x63]])]

def outTwoBuckets : BuildOut :=
  ⟨0x41, [0, 5, 5],
   [0xFD, 0x61, 0xFE, 0, 0, 0xFD, 0x63, 0xFE, 3, 0],
   [1, 0, 0, 1, 0, 0],
   [0xFD, 0x61, 0x2F, 0x62, 0xFE]⟩

/-- The spec's concrete one-entry database `{"image/gif": ["gif"]}`. -/
def dbGif : List (List Nat × List (List Nat)) :=
  [([0x69, 0x6D, 0x61, 0x67, 0x65, 0x2F, 0x67, 0x69, 0x66], [[0x67, 0x69, 0x66]])]

/-- The same dictionary, inverted, as the spec-modelled builder consumes it. -/
def dictGif : List (List Nat × List (List Nat)) :=
  [([0x67, 0x69, 0x66], [[0x69, 0x6D, 0x61, 0x67, 0x65, 0x2F, 0x67, 0x69, 0x66]])]

/-- The output of the in-tree builder on `dbGif`. -/
def outGif : BuildOut :=
  ⟨0x47, [0], [0xFD, 0x67, 0x69, 0x66, 0xFE, 0, 0], [1, 0, 0],
   [0xFD, 0x69, 0x6D, 0x61, 0x67, 0x65, 0x2F, 0x67, 0x69, 0x66, 0xFE]⟩

/-- `BTreeMap` lookup: the media-type list stored under extension `e`
(empty if absent). -/
def mimesOf (l : List (List Nat × List (List Nat))) (e : List Nat) :
    List (List Nat) :=
  ((l.find? fun p => p.1 == e).map Prod.snd).getD []

/-- The `(extension, media-type)` pairs of the database in encounter order
(outer iteration order, then each media type's extension list order). -/
def dbPairs (db : List (List Nat × List (List Nat))) : List (List Nat × List Nat) :=
  (db.map fun p => p.2.map fun e => (e, p.1)).flatten

/-- The spec's shared-extension scenario: `xml` under two media types. -/
def dbShared : List (List Nat × List (List Nat)) :=
  [([0x61, 0x2F, 0x62], [[0x78, 0x6D, 0x6C]]),
   ([0x63, 0x2F, 0x64], [[0x78, 0x6D, 0x6C]])]

/-- Total byte length of a list of pieces. -/
def sumLens (ps : List (List Nat)) : Nat :=
  (ps.map List.length).sum

/-- The spec's concrete scenario dictionary, inverted and sorted:
`gif → [image/gif]`, `txt → [text/plain]`. -/
def dictGifTxt : List (List Nat × List (List Nat)) :=
  [([0x67, 0x69, 0x66],
    [[0x69, 0x6D, 0x61, 0x67, 0x65, 0x2F, 0x67, 0x69, 0x66]]),
   ([0x74, 0x78, 0x74],
    [[0x74, 0x65, 0x78, 0x74, 0x2F, 0x70, 0x6C, 0x61, 0x69, 0x6E]])]

theorem extension_lut_index_none_iff (offset : Nat) (ext : List Nat) :
    extension_lut_index offset ext = none ↔
      ext = [] ∨ ∃ c rest, ext = c :: rest ∧
        (255 < to_ascii_uppercase c ∨ to_ascii_uppercase c < offset) := by
  cases ext with
  | nil => simp [extension_lut_index]
  | cons c rest =>
    simp only [extension_lut_index, List.head?_cons]
    split_ifs with h1 h2 <;>
      simp [List.cons.injEq] <;> omega

theorem get_mimes_none_of_lut_index_none (data : PackedData) (ext : List Nat)
    (h : extension_lut_index data.lut_offset ext = none) :
    get_mimes data ext = none := by
  unfold get_mimes
  rw [h]

theorem scanBucket_none_of_no_offsets (data : PackedData) (extB : List Nat)
    (h : data.extension_offsets = []) (i fuel : Nat) :
    scanBucket data extB i fuel = none := by
  cases fuel with
  | zero => rfl
  | succ n => simp [scanBucket, get_packed_range, h]

/-- C10: `extension_lut_index` misses exactly on an empty string, a folded
first code point above 255, or one below `offset`; a non-ASCII Latin-1
first character (128–255) at or above `offset` is accepted and mapped to
`code_point - offset`. -/
theorem extension_lut_index_boundary :
    (∀ offset ext, extension_lut_index offset ext = none ↔
        ext = [] ∨ ∃ c rest, ext = c :: rest ∧
          (255 < to_ascii_uppercase c ∨ to_ascii_uppercase c < offset)) ∧
    (∀ offset c rest, 0x80 ≤ c → c ≤ 255 → offset ≤ c →
        extension_lut_index offset (c :: rest) = some (c - offset)) := by
  refine ⟨extension_lut_index_none_iff, ?_⟩
  intro offset c rest h1 h2 h3
  have hup : to_ascii_uppercase c = c := by
    unfold to_ascii_uppercase
    split_ifs <;> omega
  simp [extension_lut_index, hup, h2, h3]

theorem extension_lut_index_boundary_witness :
    extension_lut_index 65 [233] = some 168 :=
  extension_lut_index_boundary.2 65 233 [] (by decide) (by decide) (by decide)

/-- C2 counterexample: a query whose first character is not ASCII
(`é`, code point `0xE9 > 0x7F`) does not force a miss — on this table the
lookup succeeds, because `extension_lut_index` accepts every first code
point up to 255. -/
theorem get_mimes_nonascii_first_char_hit :
    0x7F < 0xE9 ∧
    get_mimes latin1Table [0xE9] = some ⟨[0], [0, 1], [0x78], 0, 0⟩ := by
  constructor
  · decide
  · decide

/-- C2 (amended): `get_mimes` returns `none` whenever the query is empty, or
its uppercase-folded first code point exceeds 255, or that code point is
below `lut_offset` (underflow); "first character is not ASCII" had to be
weakened to "first code point above 255". -/
theorem get_mimes_miss_conditions (data : PackedData) (ext : List Nat)
    (h : ext = [] ∨ ∃ c rest, ext = c :: rest ∧
        (255 < to_ascii_uppercase c ∨ to_ascii_uppercase c < data.lut_offset)) :
    get_mimes data ext = none :=
  get_mimes_none_of_lut_index_none data ext
    ((extension_lut_index_none_iff data.lut_offset ext).2 h)

theorem get_mimes_miss_conditions_witness :
    get_mimes latin1Table [] = none :=
  get_mimes_miss_conditions latin1Table [] (Or.inl rfl)

/-- C5: on tables with out-of-range indices or ranges whose start exceeds
their end, `get_mimes` and `Mimes::get` still evaluate to a defined value,
namely `none` — and on any table with an empty `extension_offsets` array
every lookup degrades to a miss. -/
theorem decoder_malformed_degrades_to_miss :
    get_mimes badLutTable [0x61] = none ∧
    get_mimes badOffsetsTable [0x61] = none ∧
    Mimes.get ⟨[9], [0, 1], [0x61], 0, 0⟩ 0 = none ∧
    Mimes.get ⟨[0], [5, 2], [0x61], 0, 0⟩ 0 = none ∧
    ∀ (data : PackedData) (ext : List Nat),
      data.extension_offsets = [] → get_mimes data ext = none := by
  refine ⟨by decide, by decide, by decide, by decide, ?_⟩
  intro data ext h
  unfold get_mimes
  cases hl : extension_lut_index data.lut_offset ext with
  | none => rfl
  | some lutIdx =>
    show (match get_packed_range data.extension_lut lutIdx with
      | none => none
      | some (s, e) => scanBucket data (strBytes ext) s (e - s)) = none
    cases hr : get_packed_range data.extension_lut lutIdx with
    | none => rfl
    | some se =>
      obtain ⟨s, e⟩ := se
      exact scanBucket_none_of_no_offsets data _ h s (e - s)

theorem decoder_malformed_degrades_to_miss_witness :
    get_mimes badLutTable [0x63] = none :=
  decoder_malformed_degrades_to_miss.2.2.2.2 badLutTable [0x63] rfl

/-- C8: `len` is the length of the borrowed index slice; `get i` succeeds
exactly when `i < len` and the resolved offsets are valid; `get i = none`
for every out-of-range `i`. -/
theorem mimes_view_contract (m : Mimes) (i : Nat) :
    m.len = m.extension_mimes.length ∧
    ((m.get i).isSome = true ↔ i < m.len ∧ mimes_get_resolvable m i) ∧
    (m.len ≤ i → m.get i = none) := by
  refine ⟨rfl, ?_, ?_⟩
  · unfold mimes_get_resolvable
    cases hj : m.extension_mimes[i]? with
    | none =>
      simp only [Mimes.get, hj, Option.isSome_none]
      constructor
      · intro h
        cases h
      · rintro ⟨-, j, s, e, hj2, -⟩
        cases hj2
    | some j =>
      have hi : i < m.extension_mimes.length := by
        by_contra hge
        rw [List.getElem?_eq_none (by omega)] at hj
        cases hj
      cases hr : get_packed_range m.mime_offsets j with
      | none =>
        simp only [Mimes.get, hj, hr, Option.isSome_none]
        constructor
        · intro h
          cases h
        · rintro ⟨-, j2, s, e, hj2, hr2, -⟩
          cases hj2
          rw [hr] at hr2
          cases hr2
      | some se =>
        obtain ⟨s, e⟩ := se
        simp only [Mimes.get, hj, hr]
        constructor
        · intro hs
          exact ⟨hi, j, s, e, rfl, hr, hs⟩
        · rintro ⟨-, j2, s2, e2, hj2, hr2, hs2⟩
          cases hj2
          rw [hr] at hr2
          cases hr2
          exact hs2
  · intro hle
    unfold Mimes.get
    rw [List.getElem?_eq_none hle]

theorem mimes_view_contract_witness :
    Mimes.get ⟨[3], [], [], 0, 0⟩ 1 = none :=
  (mimes_view_contract ⟨[3], [], [], 0, 0⟩ 1).2.2 (by decide)

/-- C9: two views are equal iff they borrow the identical `packed_mimes`
and `mime_offsets` buffers and their index slices hold equal elements; two
views over distinct table instances are unequal even with identical
contents (here both expose exactly the same strings). -/
theorem mimes_eq_iff_buffer_identity :
    (∀ a b : Mimes, Mimes.beq a b = true ↔
        a.packed_mimes_addr = b.packed_mimes_addr ∧
        a.mime_offsets_addr = b.mime_offsets_addr ∧
        a.extension_mimes = b.extension_mimes) ∧
    Mimes.beq viewA viewB = false ∧
    viewA.extension_mimes = viewB.extension_mimes ∧
    viewA.mime_offsets = viewB.mime_offsets ∧
    viewA.packed_mimes = viewB.packed_mimes ∧
    (∀ i, Mimes.get viewA i = Mimes.get viewB i) := by
  refine ⟨?_, by decide, rfl, rfl, rfl, fun i => rfl⟩
  intro a b
  simp [Mimes.beq, and_assoc]

theorem chain'_append_replicate (lut : List Nat) (c k : Nat)
    (hmono : lut.Chain' (· ≤ ·)) (hle : ∀ x ∈ lut, x ≤ c) :
    (lut ++ List.replicate k c).Chain' (· ≤ ·) ∧
      ∀ x ∈ lut ++ List.replicate k c, x ≤ c := by
  constructor
  · refine List.Chain'.append hmono (List.chain'_replicate_of_rel k le_rfl) ?_
    intro x hx y hy
    have hxm : x ∈ lut := List.mem_of_mem_getLast? hx
    have hyc : y = c := by
      rw [List.head?_replicate] at hy
      split_ifs at hy with hk
      · cases hy
      · cases hy
        rfl
    exact hyc ▸ hle x hxm
  · intro x hx
    rcases List.mem_append.1 hx with h | h
    · exact hle x h
    · exact le_of_eq (List.eq_of_mem_replicate h)

theorem write_entry_grows (mimeIdx : List (List Nat × Nat)) (ext : List Nat)
    (ms : List (List Nat)) (ed em ed' em' : List Nat)
    (h : write_extension_mime_entry mimeIdx ext ms ed em = some (ed', em')) :
    ed.length ≤ ed'.length := by
  unfold write_extension_mime_entry at h
  cases hm : ms.mapM fun m => (mimeIdx.find? fun q => q.1 == m).map Prod.snd with
  | none => rw [hm] at h; cases h
  | some idxs =>
    rw [hm] at h
    cases h
    simp [List.length_append]

theorem walkExts_lut_mono (lutOff : Nat) (mimeIdx : List (List Nat × Nat)) :
    ∀ (rest : List (List Nat × List (List Nat))) (last : Nat)
      (lut ed em : List Nat) (out : List Nat × List Nat × List Nat),
      lut.Chain' (· ≤ ·) → (∀ x ∈ lut, x ≤ ed.length) →
      walkExts lutOff mimeIdx rest last lut ed em = some out →
      out.1.Chain' (· ≤ ·) := by
  intro rest
  induction rest with
  | nil =>
    intro last lut ed em out hmono _ h
    unfold walkExts at h
    cases h
    exact hmono
  | cons p tail ih =>
    intro last lut ed em out hmono hle h
    obtain ⟨ext, ms⟩ := p
    unfold walkExts at h
    cases hli : extension_lut_index lutOff ext with
    | none => rw [hli] at h; cases h
    | some li =>
      cases hw : write_extension_mime_entry mimeIdx ext ms ed em with
      | none => simp only [hli, hw] at h; cases h
      | some edem =>
        obtain ⟨ed', em'⟩ := edem
        simp only [hli, hw] at h
        have hgrow := write_entry_grows mimeIdx ext ms ed em ed' em' hw
        by_cases hne : li ≠ last
        · rw [if_pos hne] at h
          obtain ⟨hm2, hb2⟩ :=
            chain'_append_replicate lut ed.length (li - last) hmono hle
          exact ih li _ ed' em' out hm2
            (fun x hx => le_trans (hb2 x hx) hgrow) h
        · rw [if_neg hne] at h
          exact ih li _ ed' em' out hmono
            (fun x hx => le_trans (hle x hx) hgrow) h

/-- C6: the bucket table emitted by the in-tree builder is monotonically
non-decreasing at every adjacent pair (including backfilled empty buckets),
and a lookup whose bucket range is empty scans zero candidates and returns
`none`. -/
theorem bucket_table_mono_and_empty_bucket_miss :
    (∀ (db : List (List Nat × List (List Nat))) (out : BuildOut),
        build_lut_main db = some out → out.extension_lut.Chain' (· ≤ ·)) ∧
    (∀ (data : PackedData) (ext : List Nat) (q s : Nat),
        extension_lut_index data.lut_offset ext = some q →
        get_packed_range data.extension_lut q = some (s, s) →
        get_mimes data ext = none) := by
  constructor
  · intro db out h
    unfold build_lut_main at h
    cases he : extensions_to_mimes db with
    | nil => rw [he] at h; cases h
    | cons p rest =>
      obtain ⟨e0, ms0⟩ := p
      rw [he] at h
      cases hli : extension_lut_index 0 e0 with
      | none => simp only [hli] at h; cases h
      | some lutOff =>
        cases hw : write_extension_mime_entry (assignMimeData db).1 e0 ms0 [] [] with
        | none => simp only [hli, hw] at h; cases h
        | some edem =>
          obtain ⟨ed, em⟩ := edem
          cases hwalk : walkExts lutOff (assignMimeData db).1 rest 0 [0] ed em with
          | none => simp only [hli, hw, hwalk] at h; cases h
          | some lutedem =>
            simp only [hli, hw, hwalk] at h
            cases h
            have := walkExts_lut_mono lutOff (assignMimeData db).1 rest 0 [0] ed em
              lutedem (List.chain'_singleton 0) ?_ hwalk
            · exact this
            · intro x hx
              simp only [List.mem_singleton] at hx
              omega
  · intro data ext q s hq hr
    unfold get_mimes
    rw [hq]
    show (match get_packed_range data.extension_lut q with
      | none => none
      | some (s, e) => scanBucket data (strBytes ext) s (e - s)) = none
    rw [hr]
    show scanBucket data (strBytes ext) s (s - s) = none
    rw [Nat.sub_self]
    rfl

theorem bucket_table_mono_and_empty_bucket_miss_witness :
    outTwoBuckets.extension_lut.Chain' (· ≤ ·) ∧
    get_mimes emptyBucketTable [0x62] = none :=
  ⟨bucket_table_mono_and_empty_bucket_miss.1 dbTwoBuckets outTwoBuckets (by decide),
   bucket_table_mono_and_empty_bucket_miss.2 emptyBucketTable [0x62] 1 5
     (by decide) (by decide)⟩

/-- C4 (code bug): after the walk, the in-tree builder pushes no final
bucket-table entry.  On a one-extension database the emitted table is
`[0]`, so the last populated bucket's exclusive end is absent and even the
first bucket's range cannot be read (`get_packed_range` needs entry 1). -/
theorem builder_missing_final_cap :
    build_lut_main dbGif = some outGif ∧
    outGif.extension_lut = [0] ∧
    outGif.extension_lut[1]? = none ∧
    get_packed_range outGif.extension_lut 0 = none := by
  refine ⟨by decide, by decide, by decide, by decide⟩

/-- C3 (code bug): the in-tree builder does not emit the five offset
arrays of the decoder's Packed Representation at all; its
`extension_data` is a guard-byte stream (`FD ext FE idx`), which differs
from the spec's delimiter-free `packed_extensions` and contains bytes
above `0x7F` that cannot occur in a Rust `&str` buffer. -/
theorem builder_emits_guard_byte_layout :
    build_lut_main dbGif = some outGif ∧
    outGif.extension_data = [0xFD, 0x67, 0x69, 0x66, 0xFE, 0, 0] ∧
    (buildPackedData dictGif).packed_extensions = [0x67, 0x69, 0x66] ∧
    outGif.extension_data ≠ (buildPackedData dictGif).packed_extensions ∧
    outGif.extension_data.any (fun b => 0x7F < b) = true := by
  refine ⟨by decide, by decide, by decide, by decide, by decide⟩

theorem lexLt_irrefl (a : List Nat) : lexLt a a = false := by
  induction a with
  | nil => rfl
  | cons x xs ih => simp [lexLt, ih]

theorem lexLt_trans (a : List Nat) : ∀ b c : List Nat,
    lexLt a b = true → lexLt b c = true → lexLt a c = true := by
  induction a with
  | nil =>
    intro b c hab hbc
    cases b with
    | nil => cases hab
    | cons y ys =>
      cases c with
      | nil => cases hbc
      | cons z zs => rfl
  | cons x xs ih =>
    intro b c hab hbc
    cases b with
    | nil => cases hab
    | cons y ys =>
      cases c with
      | nil => cases hbc
      | cons z zs =>
        simp only [lexLt, Bool.or_eq_true, Bool.and_eq_true, decide_eq_true_eq,
          beq_iff_eq] at *
        rcases hab with h1 | ⟨h1, h2⟩ <;> rcases hbc with h3 | ⟨h3, h4⟩
        · left; omega
        · left; omega
        · left; omega
        · right; exact ⟨by omega, ih ys zs h2 h4⟩

theorem lexLt_total (a : List Nat) : ∀ b : List Nat,
    a ≠ b → lexLt a b = true ∨ lexLt b a = true := by
  induction a with
  | nil =>
    intro b hne
    cases b with
    | nil => exact absurd rfl hne
    | cons y ys => left; rfl
  | cons x xs ih =>
    intro b hne
    cases b with
    | nil => right; rfl
    | cons y ys =>
      by_cases hxy : x = y
      · subst hxy
        have hne2 : xs ≠ ys := fun h => hne (by rw [h])
        rcases ih ys hne2 with h | h
        · left; simp [lexLt, h]
        · right; simp [lexLt, h]
      · rcases Nat.lt_or_ge x y with h | h
        · left; simp [lexLt, h]
        · have hyx : y < x := by omega
          right; simp [lexLt, hyx]

theorem lexLt_asymm (a b : List Nat) (hab : lexLt a b = true) : a ≠ b := by
  intro h
  subst h
  rw [lexLt_irrefl] at hab
  cases hab

theorem mimesOf_cons (e : List Nat) (ms : List (List Nat))
    (rest : List (List Nat × List (List Nat))) (x : List Nat) :
    mimesOf ((e, ms) :: rest) x = if e = x then ms else mimesOf rest x := by
  by_cases h : e = x
  · subst h
    simp [mimesOf, List.find?_cons_of_pos]
  · rw [if_neg h]
    unfold mimesOf
    rw [List.find?_cons_of_neg]
    simp [h]

theorem mimesOf_eq_nil_of_not_key (l : List (List Nat × List (List Nat)))
    (x : List Nat) (h : ∀ p ∈ l, p.1 ≠ x) : mimesOf l x = [] := by
  unfold mimesOf
  rw [List.find?_eq_none.2]
  · rfl
  · intro p hp
    simp [h p hp]

/-- Keys appearing after an insertion: the inserted key or an old key. -/
theorem insertSorted_key_mem (ext mime : List Nat) :
    ∀ (l : List (List Nat × List (List Nat))) (p : List Nat × List (List Nat)),
      p ∈ insertSorted ext mime l → p.1 = ext ∨ ∃ q ∈ l, p.1 = q.1 := by
  intro l
  induction l with
  | nil =>
    intro p hp
    simp only [insertSorted, List.mem_singleton] at hp
    subst hp
    left
    rfl
  | cons q rest ih =>
    intro p hp
    obtain ⟨e, ms⟩ := q
    unfold insertSorted at hp
    split_ifs at hp with h1 h2
    · rcases List.mem_cons.1 hp with h | h
      · subst h; right; exact ⟨(e, ms), List.mem_cons_self _ _, rfl⟩
      · right
        exact ⟨p, List.mem_cons_of_mem _ h, rfl⟩
    · rcases List.mem_cons.1 hp with h | h
      · subst h; left; rfl
      · right
        exact ⟨p, h, rfl⟩
    · rcases List.mem_cons.1 hp with h | h
      · subst h; right; exact ⟨(e, ms), List.mem_cons_self _ _, rfl⟩
      · rcases ih p h with h2 | ⟨q2, hq2, hq3⟩
        · left; exact h2
        · right; exact ⟨q2, List.mem_cons_of_mem _ hq2, hq3⟩

/-- Insertion keeps the association list strictly sorted by key. -/
theorem insertSorted_sorted (ext mime : List Nat) :
    ∀ l : List (List Nat × List (List Nat)),
      (l.Pairwise fun p q => lexLt p.1 q.1 = true) →
      (insertSorted ext mime l).Pairwise fun p q => lexLt p.1 q.1 = true := by
  intro l
  induction l with
  | nil =>
    intro _
    simp [insertSorted]
  | cons q rest ih =>
    intro hs
    obtain ⟨e, ms⟩ := q
    have hhead : ∀ p ∈ rest, lexLt e p.1 = true :=
      fun p hp => List.rel_of_pairwise_cons hs hp
    have htail := hs.of_cons
    unfold insertSorted
    by_cases h1 : ext = e
    · rw [if_pos h1]
      exact List.Pairwise.cons (fun p hp => hhead p hp) htail
    · rw [if_neg h1]
      by_cases h2 : lexLt ext e = true
      · rw [if_pos h2]
        refine List.Pairwise.cons ?_ hs
        intro p hp
        rcases List.mem_cons.1 hp with h | h
        · subst h; exact h2
        · exact lexLt_trans ext _ _ h2 (hhead p h)
      · rw [if_neg h2]
        refine List.Pairwise.cons ?_ (ih htail)
        intro p hp
        rcases insertSorted_key_mem ext mime rest p hp with h | ⟨q2, hq2, hq3⟩
        · rw [h]
          rcases lexLt_total ext e h1 with hc | hc
          · exact absurd hc h2
          · exact hc
        · rw [hq3]
          exact hhead q2 hq2

/-- Insertion appends the media type to exactly the inserted key's list. -/
theorem insertSorted_mimesOf (ext mime : List Nat) :
    ∀ (l : List (List Nat × List (List Nat))),
      (l.Pairwise fun p q => lexLt p.1 q.1 = true) →
      ∀ x, mimesOf (insertSorted ext mime l) x =
        if x = ext then mimesOf l x ++ [mime] else mimesOf l x := by
  intro l
  induction l with
  | nil =>
    intro _ x
    show mimesOf ((ext, [mime]) :: []) x = _
    rw [mimesOf_cons]
    by_cases hx : x = ext
    · subst hx
      rw [if_pos rfl, if_pos rfl]
      simp [mimesOf]
    · rw [if_neg (fun hc => hx hc.symm), if_neg hx]
  | cons q rest ih =>
    intro hs x
    obtain ⟨e, ms⟩ := q
    have hhead : ∀ p ∈ rest, lexLt e p.1 = true :=
      fun p hp => List.rel_of_pairwise_cons hs hp
    have htail := hs.of_cons
    unfold insertSorted
    by_cases h1 : ext = e
    · subst h1
      rw [if_pos rfl, mimesOf_cons, mimesOf_cons]
      by_cases hx : ext = x
      · subst hx
        simp
      · have hx2 : ¬x = ext := fun hc => hx hc.symm
        rw [if_neg hx, if_neg hx2, if_neg hx]
    · rw [if_neg h1]
      by_cases h2 : lexLt ext e = true
      · rw [if_pos h2, mimesOf_cons]
        by_cases hx : x = ext
        · subst hx
          rw [if_pos rfl, if_pos rfl]
          have hnil : mimesOf ((e, ms) :: rest) x = [] := by
            apply mimesOf_eq_nil_of_not_key
            intro p hp
            rcases List.mem_cons.1 hp with h | h
            · subst h
              exact fun hc => (lexLt_asymm x e h2) hc.symm
            · intro hc
              have hxp : lexLt x p.1 = true := lexLt_trans x e p.1 h2 (hhead p h)
              exact (lexLt_asymm x p.1 hxp) hc.symm
          rw [hnil]
          rfl
        · rw [if_neg (fun hc => hx hc.symm), if_neg hx]
      · rw [if_neg h2, mimesOf_cons, mimesOf_cons]
        by_cases hex : e = x
        · subst hex
          rw [if_pos rfl, if_neg (fun hc => h1 hc.symm), if_pos rfl]
        · rw [if_neg hex, if_neg hex, ih htail x]

theorem foldl_insertSorted_char (pairs : List (List Nat × List Nat)) :
    ∀ acc : List (List Nat × List (List Nat)),
      (acc.Pairwise fun p q => lexLt p.1 q.1 = true) →
      ((pairs.foldl (fun a pr => insertSorted pr.1 pr.2 a) acc).Pairwise
          fun p q => lexLt p.1 q.1 = true) ∧
      (∀ x, mimesOf (pairs.foldl (fun a pr => insertSorted pr.1 pr.2 a) acc) x =
          mimesOf acc x ++ (pairs.filter fun pr => pr.1 == x).map Prod.snd) ∧
      (∀ p ∈ pairs.foldl (fun a pr => insertSorted pr.1 pr.2 a) acc,
          p.1 ∈ acc.map Prod.fst ∨ p.1 ∈ pairs.map Prod.fst) := by
  induction pairs with
  | nil =>
    intro acc hs
    refine ⟨hs, fun x => by simp, fun p hp => Or.inl ?_⟩
    exact List.mem_map_of_mem Prod.fst hp
  | cons pr rest ih =>
    intro acc hs
    obtain ⟨prf, prs⟩ := pr
    have hs2 := insertSorted_sorted prf prs acc hs
    obtain ⟨ihs, ihv, ihm⟩ := ih (insertSorted prf prs acc) hs2
    refine ⟨ihs, ?_, ?_⟩
    · intro x
      rw [List.foldl_cons] at *
      rw [ihv x, insertSorted_mimesOf prf prs acc hs x]
      by_cases hx : x = prf
      · subst hx
        rw [if_pos rfl, List.filter_cons_of_pos (by simp), List.map_cons,
          List.append_assoc]
        rfl
      · rw [if_neg hx, List.filter_cons_of_neg (by simpa using fun hc => hx hc.symm)]
    · intro p hp
      rw [List.foldl_cons] at hp
      rcases ihm p hp with h | h
      · rcases List.mem_map.1 h with ⟨q, hq, hq2⟩
        rcases insertSorted_key_mem prf prs acc q hq with h2 | ⟨q2, hq3, hq4⟩
        · right
          rw [List.map_cons, ← hq2, h2]
          exact List.mem_cons_self _ _
        · left
          rw [← hq2, hq4]
          exact List.mem_map_of_mem Prod.fst hq3
      · right
        rw [List.map_cons]
        exact List.mem_cons_of_mem _ h

theorem extensions_to_mimes_eq_fold (db : List (List Nat × List (List Nat))) :
    extensions_to_mimes db =
      (dbPairs db).foldl (fun a pr => insertSorted pr.1 pr.2 a) [] := by
  unfold extensions_to_mimes dbPairs
  rw [List.foldl_flatten]
  rw [List.foldl_map]
  congr 1
  funext acc p
  rw [List.foldl_map]

theorem eq_ignore_ascii_case_cons (x y : Nat) (xs ys : List Nat) :
    eq_ignore_ascii_case (x :: xs) (y :: ys) =
      ((to_ascii_lowercase x == to_ascii_lowercase y) && eq_ignore_ascii_case xs ys) := by
  rw [Bool.eq_iff_iff]
  simp only [eq_ignore_ascii_case, List.length_cons, List.zip_cons_cons, List.all_cons,
    Bool.and_eq_true, beq_iff_eq]
  constructor
  · rintro ⟨h1, h2, h3⟩
    exact ⟨h2, by omega, h3⟩
  · rintro ⟨h1, h2, h3⟩
    exact ⟨by omega, h1, h3⟩

theorem eq_ignore_ascii_case_iff (a : List Nat) : ∀ b : List Nat,
    eq_ignore_ascii_case a b = true ↔
      a.map to_ascii_lowercase = b.map to_ascii_lowercase := by
  induction a with
  | nil =>
    intro b
    cases b with
    | nil => simp [eq_ignore_ascii_case]
    | cons y ys => simp [eq_ignore_ascii_case]
  | cons x xs ih =>
    intro b
    cases b with
    | nil => simp [eq_ignore_ascii_case]
    | cons y ys =>
      rw [eq_ignore_ascii_case_cons]
      simp only [Bool.and_eq_true, beq_iff_eq, List.map_cons, List.cons.injEq]
      rw [ih ys]

theorem to_ascii_lowercase_of_no_upper (b : Nat) (h : ¬(0x41 ≤ b ∧ b ≤ 0x5A)) :
    to_ascii_lowercase b = b := by
  unfold to_ascii_lowercase
  rw [if_neg h]

/-- Byte-distinct strings without uppercase ASCII letters are also
case-insensitively distinct. -/
theorem eq_ignore_false_of_ne_no_upper (a b : List Nat)
    (ha : ∀ c ∈ a, ¬(0x41 ≤ c ∧ c ≤ 0x5A)) (hb : ∀ c ∈ b, ¬(0x41 ≤ c ∧ c ≤ 0x5A))
    (hne : a ≠ b) : eq_ignore_ascii_case a b = false := by
  rw [Bool.eq_false_iff]
  intro hc
  rw [eq_ignore_ascii_case_iff] at hc
  have hida : a.map to_ascii_lowercase = a := by
    rw [List.map_congr_left fun c hcmem =>
      to_ascii_lowercase_of_no_upper c (ha c hcmem)]
    exact List.map_id a
  have hidb : b.map to_ascii_lowercase = b := by
    rw [List.map_congr_left fun c hcmem =>
      to_ascii_lowercase_of_no_upper c (hb c hcmem)]
    exact List.map_id b
  rw [hida, hidb] at hc
  exact hne hc

theorem dbPairs_key_no_upper (db : List (List Nat × List (List Nat)))
    (hlow : ∀ p ∈ db, ∀ e ∈ p.2, ∀ c ∈ e, ¬(0x41 ≤ c ∧ c ≤ 0x5A))
    (k : List Nat) (hk : k ∈ (dbPairs db).map Prod.fst) :
    ∀ c ∈ k, ¬(0x41 ≤ c ∧ c ≤ 0x5A) := by
  rcases List.mem_map.1 hk with ⟨pr, hpr, rfl⟩
  rcases List.mem_flatten.1 hpr with ⟨l, hl, hprl⟩
  rcases List.mem_map.1 hl with ⟨p, hp, rfl⟩
  rcases List.mem_map.1 hprl with ⟨e, he, rfl⟩
  exact hlow p hp e he

/-- C7 (amended): the inversion loop stores every extension exactly once
(keys are pairwise distinct), with the media-type list being the
concatenation of all originating media types in the encounter order of the
source dictionary; and when the input extensions contain no uppercase
ASCII letters (as in the real database), the stored extensions are even
pairwise ASCII-case-insensitively distinct.  (Unconditionally the builder
deduplicates byte-exactly only — see the counterexample.) -/
theorem extensions_to_mimes_merge (db : List (List Nat × List (List Nat))) :
    (((extensions_to_mimes db).map Prod.fst).Pairwise fun a b => a ≠ b) ∧
    (∀ x, mimesOf (extensions_to_mimes db) x =
        ((dbPairs db).filter fun pr => pr.1 == x).map Prod.snd) ∧
    ((∀ p ∈ db, ∀ e ∈ p.2, ∀ c ∈ e, ¬(0x41 ≤ c ∧ c ≤ 0x5A)) →
      ((extensions_to_mimes db).map Prod.fst).Pairwise
        fun a b => eq_ignore_ascii_case a b = false) := by
  obtain ⟨hs, hv, hm⟩ := foldl_insertSorted_char (dbPairs db) [] List.Pairwise.nil
  rw [extensions_to_mimes_eq_fold]
  have hkeys : ∀ k ∈ ((dbPairs db).foldl
      (fun a pr => insertSorted pr.1 pr.2 a) []).map Prod.fst,
      k ∈ (dbPairs db).map Prod.fst := by
    intro k hk
    rcases List.mem_map.1 hk with ⟨p, hp, rfl⟩
    rcases hm p hp with h | h
    · simp at h
    · exact h
  refine ⟨?_, ?_, ?_⟩
  · exact List.Pairwise.map Prod.fst (fun p q h => lexLt_asymm p.1 q.1 h) hs
  · intro x
    rw [hv x]
    simp [mimesOf]
  · intro hlow
    have hne := List.Pairwise.map Prod.fst (fun p q h => lexLt_asymm p.1 q.1 h) hs
    refine hne.imp_of_mem ?_
    intro a b ha hb hab
    exact eq_ignore_false_of_ne_no_upper a b
      (dbPairs_key_no_upper db hlow a (hkeys a ha))
      (dbPairs_key_no_upper db hlow b (hkeys b hb)) hab

/-- C7 counterexample: with an input containing the case-variant
extensions `"tar"` and `"TAR"` under different media types, the builder
stores both — the stored extensions are not pairwise case-insensitively
distinct. -/
theorem extensions_to_mimes_case_variants_kept :
    extensions_to_mimes
        [([0x61, 0x2F, 0x62], [[0x74, 0x61, 0x72]]),
         ([0x63, 0x2F, 0x64], [[0x54, 0x41, 0x52]])] =
      [([0x54, 0x41, 0x52], [[0x63, 0x2F, 0x64]]),
       ([0x74, 0x61, 0x72], [[0x61, 0x2F, 0x62]])] ∧
    eq_ignore_ascii_case [0x54, 0x41, 0x52] [0x74, 0x61, 0x72] = true := by
  refine ⟨by decide, by decide⟩

theorem extensions_to_mimes_merge_witness :
    ((extensions_to_mimes dbShared).map Prod.fst).Pairwise
      (fun a b => eq_ignore_ascii_case a b = false) :=
  (extensions_to_mimes_merge dbShared).2.2 (by decide)

theorem sumLens_append (a b : List (List Nat)) :
    sumLens (a ++ b) = sumLens a + sumLens b := by
  simp [sumLens]

theorem offsetsOf_getElem (ps : List (List Nat)) : ∀ k : Nat,
    (offsetsOf ps)[k]? =
      if k ≤ ps.length then some (sumLens (ps.take k)) else none := by
  induction ps with
  | nil =>
    intro k
    cases k with
    | zero => simp [offsetsOf, sumLens]
    | succ n => simp [offsetsOf, sumLens]
  | cons p ps ih =>
    intro k
    cases k with
    | zero => simp [offsetsOf, sumLens]
    | succ n =>
      simp only [offsetsOf, List.getElem?_cons_succ, List.getElem?_map, ih n]
      by_cases h : n ≤ ps.length
      · rw [if_pos h, if_pos (by simpa using h)]
        simp [sumLens, List.take_succ_cons]
      · rw [if_neg h, if_neg (by simpa using h)]
        rfl

theorem get_packed_range_offsetsOf (ps : List (List Nat)) (k : Nat)
    (h : k < ps.length) :
    get_packed_range (offsetsOf ps) k =
      some (sumLens (ps.take k), sumLens (ps.take (k + 1))) := by
  unfold get_packed_range
  rw [offsetsOf_getElem ps k, if_pos (by omega), offsetsOf_getElem ps (k + 1),
    if_pos (by omega)]

theorem sumLens_take_le (ps : List (List Nat)) (k : Nat) :
    sumLens (ps.take k) ≤ sumLens ps := by
  conv_rhs => rw [← List.take_append_drop k ps]
  rw [sumLens_append]
  exact Nat.le_add_right _ _

theorem sumLens_take_succ (ps : List (List Nat)) (k : Nat) (h : k < ps.length) :
    sumLens (ps.take (k + 1)) = sumLens (ps.take k) + ps[k].length := by
  rw [List.take_succ, List.getElem?_eq_getElem h]
  rw [sumLens_append]
  simp [sumLens]

theorem flatten_drop_sumLens (ps : List (List Nat)) : ∀ k : Nat,
    (ps.flatten).drop (sumLens (ps.take k)) = (ps.drop k).flatten := by
  induction ps with
  | nil => intro k; simp [sumLens]
  | cons p ps ih =>
    intro k
    cases k with
    | zero => simp [sumLens]
    | succ n =>
      rw [List.take_succ_cons, List.drop_succ_cons, List.flatten_cons]
      show List.drop (sumLens (p :: List.take n ps)) _ = _
      have hsum : sumLens (p :: List.take n ps) =
          p.length + sumLens (List.take n ps) := by
        simp [sumLens]
      rw [hsum, List.drop_append, ih n]

theorem flatten_length (ps : List (List Nat)) : ps.flatten.length = sumLens ps := by
  simp [sumLens]

theorem sliceGetRange_flatten (ps : List (List Nat)) (k : Nat)
    (h : k < ps.length) :
    sliceGetRange ps.flatten (sumLens (ps.take k)) (sumLens (ps.take (k + 1))) =
      some ps[k] := by
  unfold sliceGetRange
  rw [if_pos]
  · rw [flatten_drop_sumLens ps k, sumLens_take_succ ps k h,
      Nat.add_sub_cancel_left, List.drop_eq_getElem_cons h, List.flatten_cons,
      List.take_left]
  · constructor
    · rw [sumLens_take_succ ps k h]
      exact Nat.le_add_right _ _
    · rw [flatten_length]
      exact sumLens_take_le ps (k + 1)

theorem ascii_char_boundary (s : List Nat) (hascii : ∀ b ∈ s, b < 0x80)
    (i : Nat) (hi : i ≤ s.length) : is_char_boundary s i = true := by
  unfold is_char_boundary
  cases h : s[i]? with
  | some b =>
    have hb : b ∈ s := by
      rcases List.getElem?_eq_some.1 h with ⟨hlt, hget⟩
      exact hget ▸ List.getElem_mem hlt
    have := hascii b hb
    simp only [Bool.or_eq_true, Bool.not_eq_true', Bool.and_eq_false_iff]
    right
    left
    simp
    omega
  | none =>
    have : s.length ≤ i := by
      by_contra hlt
      rw [List.getElem?_eq_getElem (by omega)] at h
      cases h
    have hieq : i = s.length := by omega
    simp [hieq]

theorem str_get_range_flatten (ps : List (List Nat)) (k : Nat)
    (h : k < ps.length) (hascii : ∀ p ∈ ps, ∀ b ∈ p, b < 0x80) :
    str_get_range ps.flatten (sumLens (ps.take k)) (sumLens (ps.take (k + 1))) =
      some ps[k] := by
  have hall : ∀ b ∈ ps.flatten, b < 0x80 := by
    intro b hb
    rcases List.mem_flatten.1 hb with ⟨l, hl, hbl⟩
    exact hascii l hl b hbl
  have hs := sliceGetRange_flatten ps k h
  unfold sliceGetRange at hs
  unfold str_get_range
  rw [if_pos] at hs
  · rw [if_pos]
    · exact hs
    · refine ⟨?_, ?_, ?_⟩
      · rw [sumLens_take_succ ps k h]
        exact Nat.le_add_right _ _
      · refine ascii_char_boundary _ hall _ ?_
        rw [flatten_length]
        exact sumLens_take_le ps k
      · refine ascii_char_boundary _ hall _ ?_
        rw [flatten_length]
        exact sumLens_take_le ps (k + 1)
  · constructor
    · rw [sumLens_take_succ ps k h]
      exact Nat.le_add_right _ _
    · rw [flatten_length]
      exact sumLens_take_le ps (k + 1)

theorem dedupFirstAux_subset (x : List Nat) :
    ∀ (l seen : List (List Nat)), x ∈ dedupFirstAux seen l → x ∈ l := by
  intro l
  induction l with
  | nil => intro seen h; cases h
  | cons y ys ih =>
    intro seen h
    unfold dedupFirstAux at h
    split_ifs at h with hy
    · exact List.mem_cons_of_mem _ (ih seen h)
    · rcases List.mem_cons.1 h with h2 | h2
      · exact h2 ▸ List.mem_cons_self _ _
      · exact List.mem_cons_of_mem _ (ih (seen ++ [y]) h2)

theorem mem_dedupFirstAux (x : List Nat) :
    ∀ (l seen : List (List Nat)), x ∈ l → x ∉ seen → x ∈ dedupFirstAux seen l := by
  intro l
  induction l with
  | nil => intro seen h _; cases h
  | cons y ys ih =>
    intro seen hx hs
    unfold dedupFirstAux
    split_ifs with hy
    · rcases List.mem_cons.1 hx with h2 | h2
      · exact absurd (h2 ▸ hy) hs
      · exact ih seen h2 hs
    · by_cases hxy : x = y
      · exact hxy ▸ List.mem_cons_self _ _
      · rcases List.mem_cons.1 hx with h2 | h2
        · exact absurd h2 hxy
        · refine List.mem_cons_of_mem _ (ih (seen ++ [y]) h2 ?_)
          intro hc
          rcases List.mem_append.1 hc with hc2 | hc2
          · exact hs hc2
          · rw [List.mem_singleton] at hc2
            exact hxy hc2

theorem chain_le_of_mem (a : Nat) (l : List Nat) (h : List.Chain (· ≤ ·) a l) :
    ∀ x ∈ l, a ≤ x :=
  fun _ hx => List.rel_of_pairwise_cons (List.chain_iff_pairwise.1 h) hx

theorem chain_le_getLastD (l : List Nat) : ∀ a : Nat,
    List.Chain (· ≤ ·) a l → a ≤ l.getLastD a := by
  induction l with
  | nil => intro a _; simp
  | cons b bs ih =>
    intro a h
    rw [List.getLastD_cons]
    cases h with
    | cons hab hch => exact le_trans hab (ih b hch)

theorem countLt_cons_le (b : Nat) (bs : List Nat) (q : Nat) (h : q ≤ b) :
    countLt (b :: bs) q = countLt bs q := by
  unfold countLt
  rw [List.countP_cons_of_neg]
  simp only [decide_eq_true_eq]
  omega

theorem countLt_cons_gt (b : Nat) (bs : List Nat) (q : Nat) (h : b < q) :
    countLt (b :: bs) q = countLt bs q + 1 := by
  unfold countLt
  rw [List.countP_cons_of_pos]
  simp only [decide_eq_true_eq]
  exact h

theorem countLt_eq_zero (bs : List Nat) (q : Nat) (h : ∀ x ∈ bs, q ≤ x) :
    countLt bs q = 0 := by
  unfold countLt
  rw [List.countP_eq_zero]
  intro a ha
  have := h a ha
  simp only [decide_eq_true_eq]
  omega

theorem lutWalkAux_eq (rest : List Nat) : ∀ last j : Nat,
    List.Chain (· ≤ ·) last rest →
      lutWalkAux last j rest =
        (List.range' (last + 1) (rest.getLastD last - last + 1)).map
          fun q => j + countLt rest q := by
  induction rest with
  | nil =>
    intro last j _
    show [j] = _
    simp [List.getLastD, Nat.sub_self, List.range'_one, countLt]
  | cons b bs ih =>
    intro last j hch
    cases hch with
    | cons hlb hch2 =>
      have hbL : b ≤ bs.getLastD b := chain_le_getLastD bs b hch2
      have hbs : ∀ x ∈ bs, b ≤ x := chain_le_of_mem b bs hch2
      show List.replicate (b - last) j ++ lutWalkAux b (j + 1) bs = _
      rw [ih b (j + 1) hch2, List.getLastD_cons]
      have hsplit : bs.getLastD b - last + 1 =
          (bs.getLastD b - b + 1) + (b - last) := by omega
      rw [hsplit, ← List.range'_append (last + 1) (b - last) (bs.getLastD b - b + 1) 1]
      rw [show last + 1 + 1 * (b - last) = b + 1 by omega]
      rw [List.map_append]
      congr 1
      · rw [List.map_congr_left (g := fun _ => j) ?_, List.map_const',
          List.length_range']
        intro q hq
        rcases List.mem_range'.1 hq with ⟨i, hi, hqe⟩
        have hqb : q ≤ b := by omega
        rw [countLt_cons_le b bs q hqb,
          countLt_eq_zero bs q (fun x hx => le_trans hqb (hbs x hx))]
        simp
      · apply List.map_congr_left
        intro q hq
        rcases List.mem_range'.1 hq with ⟨i, hi, hqe⟩
        rw [countLt_cons_gt b bs q (by omega)]
        omega

theorem buildLut_eq (bs : List Nat) (h : List.Chain (· ≤ ·) 0 bs) :
    buildLut (0 :: bs) =
      (List.range (bs.getLastD 0 + 2)).map fun q => countLt (0 :: bs) q := by
  show 0 :: lutWalkAux 0 1 bs = _
  rw [lutWalkAux_eq bs 0 1 h, List.range_eq_range',
    show bs.getLastD 0 + 2 = (bs.getLastD 0 + 1) + 1 from rfl,
    List.range'_succ, List.map_cons]
  congr 1
  · show (0 : Nat) = countLt (0 :: bs) 0
    rw [countLt_eq_zero (0 :: bs) 0 (fun x _ => Nat.zero_le x)]
  · rw [List.range'_succ, List.map_cons]
    congr 1
    · show 1 + countLt bs (0 + 1) = countLt (0 :: bs) (0 + 1)
      rw [countLt_cons_gt 0 bs (0 + 1) (by omega)]
      omega
    · apply List.map_congr_left
      intro q hq
      rcases List.mem_range'.1 hq with ⟨i, hi, hqe⟩
      rw [countLt_cons_gt 0 bs q (by omega)]
      omega

theorem strBytes_ascii (s : List Nat) (h : ∀ c ∈ s, c < 0x80) :
    strBytes s = s := by
  induction s with
  | nil => rfl
  | cons c cs ih =>
    have hc : c < 0x80 := h c (List.mem_cons_self _ _)
    have htl := ih fun x hx => h x (List.mem_cons_of_mem _ hx)
    unfold strBytes at *
    rw [List.map_cons, List.flatten_cons, htl]
    unfold utf8EncodeChar
    rw [if_pos hc]
    rfl

theorem upper_eq_of_lower_eq (a b : Nat)
    (h : to_ascii_lowercase a = to_ascii_lowercase b) :
    to_ascii_uppercase a = to_ascii_uppercase b := by
  unfold to_ascii_lowercase at h
  unfold to_ascii_uppercase
  split_ifs at * <;> omega

theorem upper_lt_128 (c : Nat) (h : c < 0x80) : to_ascii_uppercase c < 0x80 := by
  unfold to_ascii_uppercase
  split_ifs <;> omega

theorem countLt_position_bounds (pre post : List Nat) (q : Nat)
    (hpre : ∀ x ∈ pre, x ≤ q) (hpost : ∀ x ∈ post, q ≤ x) :
    countLt (pre ++ q :: post) q ≤ pre.length ∧
      pre.length < countLt (pre ++ q :: post) (q + 1) := by
  unfold countLt
  rw [List.countP_append, List.countP_append]
  constructor
  · have h2 : List.countP (fun b => decide (b < q)) (q :: post) = 0 := by
      rw [List.countP_eq_zero]
      intro a ha
      simp only [decide_eq_true_eq]
      rcases List.mem_cons.1 ha with h | h
      · omega
      · have := hpost a h
        omega
    rw [h2]
    simpa using List.countP_le_length _ (l := pre)
  · have h1 : List.countP (fun b => decide (b < q + 1)) pre = pre.length := by
      rw [List.countP_eq_length]
      intro a ha
      have := hpre a ha
      simp only [decide_eq_true_eq]
      omega
    have h2 : 0 < List.countP (fun b => decide (b < q + 1)) (q :: post) := by
      rw [List.countP_cons_of_pos]
      · omega
      · simp
    omega

/-- The candidate scan returns the first (unique) matching index's view. -/
theorem scanBucket_finds (data : PackedData) (extB : List Nat) (j : Nat)
    (em : List Nat) :
    ∀ (fuel s : Nat), s ≤ j → j < s + fuel →
      (∀ k, s ≤ k → k < j →
        ∃ st en cand, get_packed_range data.extension_offsets k = some (st, en) ∧
          sliceGetRange data.packed_extensions st en = some cand ∧
          eq_ignore_ascii_case cand extB = false) →
      (∃ st en cand, get_packed_range data.extension_offsets j = some (st, en) ∧
        sliceGetRange data.packed_extensions st en = some cand ∧
        eq_ignore_ascii_case cand extB = true) →
      (∃ ms me, get_packed_range data.extension_mimes_offsets j = some (ms, me) ∧
        sliceGetRange data.extension_mimes ms me = some em) →
      scanBucket data extB s fuel =
        some ⟨em, data.mime_offsets, data.packed_mimes,
              data.mime_offsets_addr, data.packed_mimes_addr⟩ := by
  intro fuel
  induction fuel with
  | zero =>
    intro s h1 h2 _ _ _
    omega
  | succ n ih =>
    intro s hs hj hmiss hhit hmimes
    by_cases hsj : s = j
    · subst hsj
      obtain ⟨st, en, cand, h1, h2, h3⟩ := hhit
      obtain ⟨ms, me, h4, h5⟩ := hmimes
      unfold scanBucket
      simp only [h1, h2]
      rw [if_pos h3]
      simp only [h4, h5]
    · have hlt : s < j := by omega
      obtain ⟨st, en, cand, h1, h2, h3⟩ := hmiss s le_rfl hlt
      unfold scanBucket
      simp only [h1, h2]
      rw [if_neg (by rw [h3]; exact Bool.false_ne_true)]
      exact ih (s + 1) (by omega) (by omega)
        (fun k hk1 hk2 => hmiss k (by omega) hk2) hhit hmimes

theorem pairwise_le_getLastD (l : List Nat) (hmono : l.Pairwise (· ≤ ·)) :
    ∀ d x, x ∈ l → x ≤ l.getLastD d := by
  induction l with
  | nil => intro d x hx; cases hx
  | cons a t ih =>
    intro d x hx
    rw [List.getLastD_cons]
    rcases List.mem_cons.1 hx with h | h
    · subst h
      exact chain_le_getLastD t x (List.chain_iff_pairwise.2 hmono)
    · exact ih hmono.of_cons a x h

theorem buildLut_lookup (bs : List Nat) (q : Nat) (hhead : bs.head? = some 0)
    (hmono : bs.Pairwise (· ≤ ·)) (hq : q ∈ bs) :
    get_packed_range (buildLut bs) q =
      some (countLt bs q, countLt bs (q + 1)) := by
  cases bs with
  | nil => cases hhead
  | cons b rest =>
    rw [List.head?_cons, Option.some.injEq] at hhead
    subst hhead
    have hchain : List.Chain (· ≤ ·) 0 rest := List.chain_iff_pairwise.2 hmono
    have hqL : q ≤ rest.getLastD 0 := by
      have := pairwise_le_getLastD (0 :: rest) hmono 0 q hq
      rwa [List.getLastD_cons] at this
    rw [buildLut_eq rest hchain]
    unfold get_packed_range
    rw [List.getElem?_map, List.getElem?_range (by omega), List.getElem?_map,
      List.getElem?_range (by omega)]
    rfl

theorem eq_ignore_length (a b : List Nat)
    (h : eq_ignore_ascii_case a b = true) : a.length = b.length := by
  unfold eq_ignore_ascii_case at h
  rw [Bool.and_eq_true] at h
  simpa using h.1

theorem countP_le_count_of_sub (bs : List Nat) (q : Nat) :
    countLt bs q ≤ countLt bs (q + 1) := by
  unfold countLt
  apply List.countP_mono_left
  intro a ha
  simp only [decide_eq_true_eq]
  omega

theorem idxOfFirst_lt_length (l : List (List Nat)) (x : List Nat)
    (h : x ∈ l) : idxOfFirst l x < l.length := by
  induction l with
  | nil => cases h
  | cons a t ih =>
    unfold idxOfFirst
    by_cases hax : a = x
    · rw [if_pos hax]
      simp
    · rw [if_neg hax]
      rcases List.mem_cons.1 h with h2 | h2
      · exact absurd h2.symm hax
      · have := ih h2
        simp only [List.length_cons]
        omega

theorem getElem?_idxOfFirst (l : List (List Nat)) (x : List Nat)
    (h : x ∈ l) : l[idxOfFirst l x]? = some x := by
  induction l with
  | nil => cases h
  | cons a t ih =>
    unfold idxOfFirst
    by_cases hax : a = x
    · rw [if_pos hax, List.getElem?_cons_zero, hax]
    · rw [if_neg hax, List.getElem?_cons_succ]
      rcases List.mem_cons.1 h with h2 | h2
      · exact absurd h2.symm hax
      · exact ih h2

/-- C1: round-trip completeness of the table built by the spec-modelled
builder (the generated `PACKED_DATA` is absent from the sources): for every
`(extension, media-type-list)` pair of the source dictionary, and every
all-ASCII case-variant `v` of the extension, `get_mimes` returns a view of
exactly that media-type list, in order.  The well-formedness hypotheses are
the spec's build preconditions: extensions non-empty and ASCII, media
types ASCII, buckets non-decreasing in dictionary order, and extensions
pairwise ASCII-case-insensitively distinct. -/
theorem lookup_roundtrip (dict : List (List Nat × List (List Nat)))
    (hascii : ∀ p ∈ dict, p.1 ≠ [] ∧ (∀ b ∈ p.1, b < 0x80) ∧
        ∀ m ∈ p.2, ∀ b ∈ m, b < 0x80)
    (hbuckets : (dict.map fun p => bucketOf p.1).Pairwise (· ≤ ·))
    (hdistinct : dict.Pairwise fun p q => eq_ignore_ascii_case p.1 q.1 = false)
    (e : List Nat) (ms : List (List Nat)) (hmem : (e, ms) ∈ dict)
    (v : List Nat) (hvascii : ∀ c ∈ v, c < 0x80)
    (hvar : eq_ignore_ascii_case e v = true) :
    ∃ m : Mimes, get_mimes (buildPackedData dict) v = some m ∧
      m.len = ms.length ∧
      ∀ i mi, ms[i]? = some mi → m.get i = some mi := by
  obtain ⟨pre, post, hdict⟩ := List.append_of_mem hmem
  obtain ⟨d0, dtl, hd0⟩ :=
    List.exists_cons_of_ne_nil (l := dict) (by rw [hdict]; simp)
  -- names for the builder's components
  have hLO : (buildPackedData dict).lut_offset =
      bucketOf ((dict.map Prod.fst).headD []) := rfl
  have hhead_fst : (dict.map Prod.fst).headD [] = d0.1 := by
    rw [hd0]; rfl
  -- the relative-bucket list fed to `buildLut`
  have hLUT : (buildPackedData dict).extension_lut =
      buildLut (dict.map fun p =>
        bucketOf p.1 - bucketOf ((dict.map Prod.fst).headD [])) := by
    show buildLut ((dict.map Prod.fst).map fun x =>
        bucketOf x - bucketOf ((dict.map Prod.fst).headD [])) = _
    rw [List.map_map]
    rfl
  have hEO : (buildPackedData dict).extension_offsets =
      offsetsOf (dict.map Prod.fst) := rfl
  have hPE : (buildPackedData dict).packed_extensions =
      (dict.map Prod.fst).flatten := rfl
  -- facts about the matched position
  have hjlen : pre.length < dict.length := by
    rw [hdict]; simp
  have hextslen : (dict.map Prod.fst).length = dict.length := List.length_map _ _
  have hexts_decomp : dict.map Prod.fst =
      pre.map Prod.fst ++ e :: post.map Prod.fst := by
    rw [hdict]; simp
  have hgetj : (dict.map Prod.fst)[pre.length]? = some e := by
    rw [hexts_decomp,
      List.getElem?_append_right (by rw [List.length_map]),
      List.length_map, Nat.sub_self, List.getElem?_cons_zero]
  have hdictj : dict[pre.length]? = some (e, ms) := by
    rw [hdict, List.getElem?_append_right le_rfl, Nat.sub_self,
      List.getElem?_cons_zero]
  -- bucket arithmetic
  have he_ne : e ≠ [] := (hascii (e, ms) hmem).1
  obtain ⟨e0, etl, he0⟩ := List.exists_cons_of_ne_nil he_ne
  have he0ascii : e0 < 0x80 := by
    refine (hascii (e, ms) hmem).2.1 e0 ?_
    rw [he0]; exact List.mem_cons_self _ _
  have hv_ne : v ≠ [] := by
    intro hc
    have := eq_ignore_length e v hvar
    rw [hc, he0] at this
    simp at this
  obtain ⟨v0, vtl, hv0⟩ := List.exists_cons_of_ne_nil hv_ne
  have hlow_heads : to_ascii_lowercase e0 = to_ascii_lowercase v0 := by
    have hmapeq := (eq_ignore_ascii_case_iff e v).1 hvar
    rw [he0, hv0, List.map_cons, List.map_cons, List.cons.injEq] at hmapeq
    exact hmapeq.1
  have hup_heads : to_ascii_uppercase v0 = bucketOf e := by
    rw [he0]
    show to_ascii_uppercase v0 = to_ascii_uppercase ((e0 :: etl).headD 0)
    rw [List.headD_cons]
    exact (upper_eq_of_lower_eq e0 v0 hlow_heads).symm
  have hbucket_mem : bucketOf e ∈ dict.map fun p => bucketOf p.1 := by
    have : bucketOf ((e, ms) : List Nat × List (List Nat)).1 ∈
        dict.map fun p => bucketOf p.1 := List.mem_map_of_mem _ hmem
    exact this
  have hfirst_le : ∀ x ∈ dict.map fun p => bucketOf p.1, bucketOf d0.1 ≤ x := by
    intro x hx
    rw [hd0, List.map_cons] at hx
    rcases List.mem_cons.1 hx with h | h
    · exact h ▸ le_rfl
    · rw [hd0, List.map_cons] at hbuckets
      exact List.rel_of_pairwise_cons hbuckets h
  have hoff_le : bucketOf d0.1 ≤ bucketOf e := hfirst_le _ hbucket_mem
  -- the lookup index
  have hlutidx : extension_lut_index (buildPackedData dict).lut_offset v =
      some (bucketOf e - bucketOf d0.1) := by
    rw [hLO, hhead_fst]
    unfold extension_lut_index
    rw [hv0]
    simp only [List.head?_cons]
    have hc : to_ascii_uppercase v0 < 0x80 := by
      rw [hup_heads, he0]
      show to_ascii_uppercase ((e0 :: etl).headD 0) < 0x80
      rw [List.headD_cons]
      exact upper_lt_128 e0 he0ascii
    rw [if_pos (by omega), if_pos (by rw [hup_heads]; exact hoff_le), hup_heads]
  refine ⟨⟨ms.map fun m => idxOfFirst (dedupFirstAux [] ((dict.map Prod.snd).flatten)) m,
      offsetsOf (dedupFirstAux [] ((dict.map Prod.snd).flatten)),
      (dedupFirstAux [] ((dict.map Prod.snd).flatten)).flatten, 0, 0⟩, ?_, ?_, ?_⟩
  · -- the lookup equation
    have hbs_eq : (dict.map fun p => bucketOf p.1).map
        (fun x => x - bucketOf d0.1) =
        dict.map fun p => bucketOf p.1 - bucketOf d0.1 := by
      rw [List.map_map]
      rfl
    have hmono_bs : (dict.map fun p => bucketOf p.1 - bucketOf d0.1).Pairwise
        (· ≤ ·) := by
      rw [← hbs_eq]
      exact List.Pairwise.map _ (fun a b h => Nat.sub_le_sub_right h _) hbuckets
    have hhead_bs : (dict.map fun p => bucketOf p.1 - bucketOf d0.1).head? =
        some 0 := by
      rw [hd0, List.map_cons, List.head?_cons, Nat.sub_self]
    have hq_mem : bucketOf e - bucketOf d0.1 ∈
        dict.map fun p => bucketOf p.1 - bucketOf d0.1 := by
      have : bucketOf ((e, ms) : List Nat × List (List Nat)).1 - bucketOf d0.1 ∈
          dict.map fun p => bucketOf p.1 - bucketOf d0.1 :=
        List.mem_map_of_mem _ hmem
      exact this
    have hq_range : get_packed_range (buildPackedData dict).extension_lut
        (bucketOf e - bucketOf d0.1) =
        some (countLt (dict.map fun p => bucketOf p.1 - bucketOf d0.1)
                (bucketOf e - bucketOf d0.1),
              countLt (dict.map fun p => bucketOf p.1 - bucketOf d0.1)
                (bucketOf e - bucketOf d0.1 + 1)) := by
      rw [hLUT, hhead_fst]
      exact buildLut_lookup _ _ hhead_bs hmono_bs hq_mem
    have hbs_decomp : (dict.map fun p => bucketOf p.1 - bucketOf d0.1) =
        pre.map (fun p => bucketOf p.1 - bucketOf d0.1) ++
          (bucketOf e - bucketOf d0.1) ::
            post.map (fun p => bucketOf p.1 - bucketOf d0.1) := by
      rw [hdict]
      simp
    have hbounds := countLt_position_bounds
      (pre.map fun p => bucketOf p.1 - bucketOf d0.1)
      (post.map fun p => bucketOf p.1 - bucketOf d0.1)
      (bucketOf e - bucketOf d0.1) ?_ ?_
    rotate_left
    · intro x hx
      have hmono2 := hbs_decomp ▸ hmono_bs
      obtain ⟨-, -, hcross⟩ := List.pairwise_append.1 hmono2
      exact hcross x hx _ (List.mem_cons_self _ _)
    · intro x hx
      have hmono2 := hbs_decomp ▸ hmono_bs
      obtain ⟨-, hqpost, -⟩ := List.pairwise_append.1 hmono2
      exact List.rel_of_pairwise_cons hqpost hx
    rw [← hbs_decomp, List.length_map] at hbounds
    obtain ⟨hs_le, hj_lt⟩ := hbounds
    have he_le_len : countLt (dict.map fun p => bucketOf p.1 - bucketOf d0.1)
        (bucketOf e - bucketOf d0.1 + 1) ≤ dict.length := by
      have := List.countP_le_length
        (fun b => decide (b < bucketOf e - bucketOf d0.1 + 1))
        (l := dict.map fun p => bucketOf p.1 - bucketOf d0.1)
      rwa [List.length_map] at this
    unfold get_mimes
    simp only [hlutidx, hq_range, strBytes_ascii v hvascii]
    refine scanBucket_finds (buildPackedData dict) v pre.length _ _ _
      hs_le (by omega) ?_ ?_ ?_
    · -- non-matching earlier candidates
      intro k hk1 hk2
      have hklt : k < (dict.map Prod.fst).length := by
        rw [hextslen]
        omega
      refine ⟨sumLens ((dict.map Prod.fst).take k),
        sumLens ((dict.map Prod.fst).take (k + 1)),
        (dict.map Prod.fst)[k], ?_, ?_, ?_⟩
      · rw [hEO]
        exact get_packed_range_offsetsOf _ k hklt
      · rw [hPE]
        exact sliceGetRange_flatten _ k hklt
      · have hkpre : k < (pre.map Prod.fst).length := by
          rw [List.length_map]
          omega
        have hkeq : (dict.map Prod.fst)[k] = (pre.map Prod.fst)[k] := by
          have h1 : (dict.map Prod.fst)[k]? = (pre.map Prod.fst)[k]? := by
            rw [hexts_decomp, List.getElem?_append, if_pos hkpre]
          rw [List.getElem?_eq_getElem hklt, List.getElem?_eq_getElem hkpre]
            at h1
          exact Option.some.inj h1
        rcases List.mem_map.1 ((hkeq ▸ List.getElem_mem hkpre :
            (dict.map Prod.fst)[k] ∈ pre.map Prod.fst)) with ⟨p, hp, hpeq⟩
        have hdis : eq_ignore_ascii_case p.1 e = false := by
          rw [hdict] at hdistinct
          obtain ⟨-, -, hcross⟩ := List.pairwise_append.1 hdistinct
          exact hcross p hp (e, ms) (List.mem_cons_self _ _)
        rw [Bool.eq_false_iff]
        intro hc
        rw [← hpeq] at hc
        have h1 := (eq_ignore_ascii_case_iff p.1 v).1 hc
        have h2 := (eq_ignore_ascii_case_iff e v).1 hvar
        have h3 : eq_ignore_ascii_case p.1 e = true :=
          (eq_ignore_ascii_case_iff p.1 e).2 (by rw [h1, h2])
        rw [hdis] at h3
        cases h3
    · -- the matching candidate
      have hjlt : pre.length < (dict.map Prod.fst).length := by
        rw [hextslen]
        exact hjlen
      have hje : (dict.map Prod.fst)[pre.length] = e := by
        rw [List.getElem?_eq_getElem hjlt] at hgetj
        exact Option.some.inj hgetj
      refine ⟨sumLens ((dict.map Prod.fst).take pre.length),
        sumLens ((dict.map Prod.fst).take (pre.length + 1)),
        (dict.map Prod.fst)[pre.length], ?_, ?_, ?_⟩
      · rw [hEO]
        exact get_packed_range_offsetsOf _ _ hjlt
      · rw [hPE]
        exact sliceGetRange_flatten _ _ hjlt
      · rw [hje]
        exact hvar
    · -- the media-type index slice of the match
      have hjm : pre.length < (dict.map fun p => p.2.map fun m =>
          idxOfFirst (dedupFirstAux [] ((dict.map Prod.snd).flatten)) m).length := by
        rw [List.length_map]
        exact hjlen
      have hjval : (dict.map fun p => p.2.map fun m =>
          idxOfFirst (dedupFirstAux [] ((dict.map Prod.snd).flatten)) m)[pre.length] =
          ms.map fun m =>
            idxOfFirst (dedupFirstAux [] ((dict.map Prod.snd).flatten)) m := by
        have h1 : (dict.map fun p => p.2.map fun m =>
            idxOfFirst (dedupFirstAux [] ((dict.map Prod.snd).flatten)) m)[pre.length]? =
            some (ms.map fun m =>
              idxOfFirst (dedupFirstAux [] ((dict.map Prod.snd).flatten)) m) := by
          rw [List.getElem?_map, hdictj]
          rfl
        rw [List.getElem?_eq_getElem hjm] at h1
        exact Option.some.inj h1
      refine ⟨sumLens ((dict.map fun p => p.2.map fun m =>
          idxOfFirst (dedupFirstAux [] ((dict.map Prod.snd).flatten)) m).take pre.length),
        sumLens ((dict.map fun p => p.2.map fun m =>
          idxOfFirst (dedupFirstAux [] ((dict.map Prod.snd).flatten)) m).take
            (pre.length + 1)), ?_, ?_⟩
      · show get_packed_range (buildPackedData dict).extension_mimes_offsets _ =
          some (_, _)
        show get_packed_range (offsetsOf (dict.map fun p => p.2.map fun m =>
          idxOfFirst (dedupFirstAux [] ((dict.map Prod.snd).flatten)) m)) _ =
          some (_, _)
        exact get_packed_range_offsetsOf _ _ hjm
      · show sliceGetRange ((dict.map fun p => p.2.map fun m =>
          idxOfFirst (dedupFirstAux [] ((dict.map Prod.snd).flatten)) m).flatten) _ _ =
          some _
        rw [← hjval]
        exact sliceGetRange_flatten _ _ hjm
  · simp [Mimes.len]
  · intro i mi hmi
    have hmi_mem_ms : mi ∈ ms := by
      rcases List.getElem?_eq_some.1 hmi with ⟨hlt, hget⟩
      exact hget ▸ List.getElem_mem hlt
    have hms_mem : ms ∈ dict.map Prod.snd := by
      have : ((e, ms) : List Nat × List (List Nat)).2 ∈ dict.map Prod.snd :=
        List.mem_map_of_mem _ hmem
      exact this
    have hmi_flat : mi ∈ (dict.map Prod.snd).flatten :=
      List.mem_flatten.2 ⟨ms, hms_mem, hmi_mem_ms⟩
    have hmi_allM : mi ∈ dedupFirstAux [] ((dict.map Prod.snd).flatten) :=
      mem_dedupFirstAux mi _ [] hmi_flat (List.not_mem_nil mi)
    have hidx_lt : idxOfFirst (dedupFirstAux [] ((dict.map Prod.snd).flatten)) mi <
        (dedupFirstAux [] ((dict.map Prod.snd).flatten)).length :=
      idxOfFirst_lt_length _ mi hmi_allM
    have hallM_ascii : ∀ p ∈ dedupFirstAux [] ((dict.map Prod.snd).flatten),
        ∀ b ∈ p, b < 0x80 := by
      intro p hp b hb
      have hpf : p ∈ (dict.map Prod.snd).flatten :=
        dedupFirstAux_subset p _ [] hp
      rcases List.mem_flatten.1 hpf with ⟨l, hl, hpl⟩
      rcases List.mem_map.1 hl with ⟨pd, hpd, rfl⟩
      exact (hascii pd hpd).2.2 p hpl b hb
    unfold Mimes.get
    simp only [List.getElem?_map, hmi, Option.map_some',
      get_packed_range_offsetsOf _ _ hidx_lt]
    have hval : (dedupFirstAux [] ((dict.map Prod.snd).flatten))[
        idxOfFirst (dedupFirstAux [] ((dict.map Prod.snd).flatten)) mi] = mi := by
      have h1 := getElem?_idxOfFirst _ mi hmi_allM
      rw [List.getElem?_eq_getElem hidx_lt] at h1
      exact Option.some.inj h1
    rw [str_get_range_flatten _ _ hidx_lt hallM_ascii, hval]

theorem lookup_roundtrip_witness :
    ∃ m : Mimes,
      get_mimes (buildPackedData dictGifTxt) [0x47, 0x49, 0x46] = some m ∧
      m.len = 1 ∧
      ∀ i mi, ([[0x69, 0x6D, 0x61, 0x67, 0x65, 0x2F, 0x67, 0x69, 0x66]] :
          List (List Nat))[i]? = some mi → m.get i = some mi :=
  lookup_roundtrip dictGifTxt (by decide) (by decide) (by decide)
    [0x67, 0x69, 0x66] [[0x69, 0x6D, 0x61, 0x67, 0x65, 0x2F, 0x67, 0x69, 0x66]]
    (by decide) [0x47, 0x49, 0x46] (by decide) (by decide)
